import Mathlib

/-!
Verification of the edit-state reconciliation and document-assembly engine of
the docgen frontend (ViewerPage).  The definitions below are a shallow
embedding of the JavaScript source: plain functions for the pure helpers
(`normalizeDocument`, `normalizeShape`, the search scan, the export join) and
explicit state passing for the stateful handlers (`handleSave`,
`fetchDocument`, `handleRegenerateDocument`, the `onInput` edit handler and
the deferred `populateEditorsFromDocument`).  React's mutable refs
(`pageContentRefs.current`, `localEditedRef.current`) become explicit fields
of a `VState` record; a region key `page${i}` / `section${i}` becomes the
pair `(Mode, Nat)`.
-/

namespace DocGen

/-- The two region kinds of the document model.  The source uses the strings
`"page"` and `"section"`; `sec` stands for the `"section"` kind (the word
itself is a Lean keyword). -/
inductive Mode where
  | page
  | sec
deriving DecidableEq, Repr

/-- A region key `(kind, index)`, the embedding of the ref-key strings
`page${i}` and `section${i}`. -/
abbrev RKey := Mode × Nat

/-! ## Document Normalizer (`normalizeDocument` / `normalizeShape`)

Raw server payloads may lack the `pages`/`sections` arrays, individual array
entries may be `null`, and a region may miss its `type` (sections) or
`layout` (pages) field, or carry it as the empty string (falsy in JS). -/

/-- A raw region object as received from the server; every field may be
absent. -/
structure RawRegion where
  name : Option String
  content : Option String
  type : Option String
  layout : Option String
deriving DecidableEq, Repr

/-- A raw document payload; `pages`/`sections` may be absent and their
entries may be `null`. -/
structure RawDoc where
  id : Option String
  title : Option String
  raw_text : Option String
  pages : Option (List (Option RawRegion))
  sections : Option (List (Option RawRegion))
deriving DecidableEq, Repr

/-- JS falsiness of an optional string field: absent (`undefined`/`null`) or
the empty string. -/
def jsFalsy : Option String → Bool
  | none => true
  | some s => s == ""

/-- Embedding of `normalizeShape(obj, mode)`:
`if (!obj) return obj; const o = {...obj};
 if (!o.type && mode === "section") o.type = "text";
 if (!o.layout && mode === "page") o.layout = "text"; return o;` -/
def normalizeShape (obj : Option RawRegion) (mode : Mode) : Option RawRegion :=
  match obj with
  | none => none
  | some o0 =>
    let o1 := if jsFalsy o0.type && (mode == Mode.sec) then { o0 with type := some ("text") } else o0
    let o2 := if jsFalsy o1.layout && (mode == Mode.page) then { o1 with layout := some ("text") } else o1
    some o2

/-- Embedding of `normalizeDocument(doc)`:
`if (!doc) return { pages: [], sections: [] };
 const copy = {...doc};
 copy.pages = (doc.pages || []).map(p => normalizeShape(p, "page"));
 copy.sections = (doc.sections || []).map(s => normalizeShape(s, "section"));
 return copy;` -/
def normalizeDocument (doc : Option RawDoc) : RawDoc :=
  match doc with
  | none => { id := none, title := none, raw_text := none, pages := some [], sections := some [] }
  | some d =>
    { d with
      pages := some ((d.pages.getD []).map (fun p => normalizeShape p Mode.page)),
      sections := some ((d.sections.getD []).map (fun s => normalizeShape s Mode.sec)) }

/-- Normalized pages never carry a falsy `layout`. -/
def layoutOk : Option RawRegion → Bool
  | none => true
  | some r => !(jsFalsy r.layout)

/-- Normalized sections never carry a falsy `type`. -/
def typeOk : Option RawRegion → Bool
  | none => true
  | some r => !(jsFalsy r.type)

/-! ## Viewer state

The viewer operates on normalized documents: regions with a `name` and a
`content` string.  (`type`/`layout` are never read by these handlers.)
React's mutable refs become explicit fields: `refs` is
`pageContentRefs.current` — `refs k = some h` means a live editable element
is registered for key `k` and its `innerHTML` is `h` — and `dirty` is
`localEditedRef.current` (an absent key is falsy, hence the total
`RKey → Bool`). -/

structure Region where
  name : String
  content : String
deriving DecidableEq, Repr

structure Document where
  title : Option String
  raw_text : Option String
  pages : List Region
  sections : List Region
deriving DecidableEq, Repr

/-- The region array of a document for one kind. -/
def regionsOf (d : Document) : Mode → List Region
  | Mode.page => d.pages
  | Mode.sec => d.sections

inductive Severity where
  | success
  | error
  | info
deriving DecidableEq, Repr

/-- The component state: authoritative document, registered live handles with
their current markup, per-key dirty flags, the loading indicator and the
snackbar. -/
structure VState where
  doc : Option Document
  refs : RKey → Option String
  dirty : RKey → Bool
  loading : Bool
  snack : Option Severity

/-- Pointwise update of a key-indexed map (`obj[key] = v`). -/
def updateF {α : Type} (f : RKey → α) (k : RKey) (v : α) : RKey → α :=
  fun q => if q = k then v else f q

/-- One iteration of `populateEditorsFromDocument`'s `forEach`:
`const el = pageContentRefs.current[key];
 if (!el || localEditedRef.current[key]) return;
 el.innerHTML = content;`
(`pg.content || ""` is the identity on strings: the empty string maps to
itself). -/
def writeIfClean (k : RKey) (c : String) (s : VState) : VState :=
  match s.refs k with
  | none => s
  | some _ => if s.dirty k then s else { s with refs := updateF s.refs k (some c) }

/-- The `forEach` over one region array, keys `(m, idx)`, `(m, idx+1)`, …. -/
def populateGo (m : Mode) (idx : Nat) : List Region → VState → VState
  | [], s => s
  | r :: rs, s => populateGo m (idx + 1) rs (writeIfClean (m, idx) r.content s)

/-- Embedding of `populateEditorsFromDocument(doc)`: pages first, then
sections (the handlers below only invoke it on a present document, so the
`if (!doc) return` guard is left to the call sites). -/
def populateEditorsFromDocument (d : Document) (s : VState) : VState :=
  populateGo Mode.sec 0 d.sections (populateGo Mode.page 0 d.pages s)

/-- Embedding of `resetRefs(doc)`: `localEditedRef.current = {}` followed by
an explicit `false` for each of `doc`'s keys nets to the all-false flag map
(an absent key is falsy); `pageContentRefs.current = {}` clears every
registration. -/
def resetRefsSt (_d : Document) (s : VState) : VState :=
  { s with dirty := fun _ => false, refs := fun _ => none }

/-- `!el.innerHTML || el.innerHTML.trim() === ""`: the markup consists of
whitespace only (the first disjunct, emptiness, is subsumed by the second). -/
def jsBlank (s : String) : Bool := s.toList.all (fun c => c.isWhitespace)

/-- The ref callback of `renderEditable` for one region, as re-invoked on a
re-render: the element for key `k` is (re-)registered, and
`if (!localEditedRef.current[refKey] && (!el.innerHTML || el.innerHTML.trim() === ""))
 el.innerHTML = item.content;`
A newly mounted element starts with empty markup, so its current markup is
`(s.refs k).getD ("")`. -/
def registerOne (k : RKey) (r : Region) (s : VState) : VState :=
  let cur := (s.refs k).getD ("")
  let newHtml := if !s.dirty k && jsBlank cur then r.content else cur
  { s with refs := updateF s.refs k (some newHtml) }

def registerGo (m : Mode) (idx : Nat) : List Region → VState → VState
  | [], s => s
  | r :: rs, s => registerGo m (idx + 1) rs (registerOne (m, idx) r s)

/-- The re-render triggered by `setDocumentData`: every region of the new
document has its `renderEditable` ref callback re-invoked (re-registration
is expected and does not touch dirty state); handles of keys not in the
document are left as they are (`if (!el) return` keeps stale entries). -/
def reregister (d : Document) (s : VState) : VState :=
  registerGo Mode.sec 0 d.sections (registerGo Mode.page 0 d.pages s)

/-- Embedding of `fetchDocument()`.  `outcome` is the result of the awaited
`api.get`; its `ok` payload is the already-normalized document
(`normalizeDocument(res.data?.document || res.data)`).  On success the code
runs `setDocumentData(normalizedDoc); resetRefs(normalizedDoc);
setTimeout(() => populateEditorsFromDocument(normalizedDoc), 50)` — the
deferred populate runs after the re-render, hence after `reregister`.
`finally` clears the loading indicator. -/
def fetchDocument (outcome : Except Unit Document) (s : VState) : VState :=
  match outcome with
  | Except.error _ => { s with snack := some Severity.error, loading := false }
  | Except.ok nd =>
    let s1 := { s with doc := some nd, loading := false }
    populateEditorsFromDocument nd (reregister nd (resetRefsSt nd s1))

/-- Embedding of `handleSave(mode, index)`.  Guards in source order:
`if (!documentData) return;` then `const item = …[index]`, `const el =
pageContentRefs.current[refKey]; if (!el) return;`.  An out-of-range index
makes `item` `undefined`, so building the payload throws and lands in the
catch block (snackbar error, no state change).  On a successful call the
code runs `setDocumentData(updated)`, a success snackbar,
`localEditedRef.current[refKey] = true`, and defers
`populateEditorsFromDocument(updated)` past the re-render. -/
def handleSave (m : Mode) (i : Nat) (outcome : Except Unit Document) (s : VState) : VState :=
  match s.doc with
  | none => s
  | some doc =>
    match s.refs (m, i) with
    | none => s
    | some _html =>
      match (regionsOf doc m).get? i with
      | none => { s with snack := some Severity.error }
      | some _item =>
        match outcome with
        | Except.error _ => { s with snack := some Severity.error }
        | Except.ok serverDoc =>
          let s1 := { s with doc := some serverDoc, snack := some Severity.success }
          let s2 := { s1 with dirty := updateF s1.dirty (m, i) true }
          populateEditorsFromDocument serverDoc (reregister serverDoc s2)

/-- `arr[idx] = {...arr[idx], content: html}` for an in-range index (an
editable element exists only for indices of rendered regions). -/
def listSetContent (l : List Region) (i : Nat) (html : String) : List Region :=
  match l.get? i with
  | some r => l.set i { r with content := html }
  | none => l

/-- Embedding of `renderEditable`'s `onInput` handler for key `(m, i)`: the
browser edit has already changed the element's markup to `html`; the handler
reads it back (`node.innerHTML`), sets the dirty flag, and folds the new
markup into `documentData`. -/
def handleInput (m : Mode) (i : Nat) (html : String) (s : VState) : VState :=
  match s.refs (m, i) with
  | none => s
  | some _ =>
    let s1 := { s with refs := updateF s.refs (m, i) (some html) }
    let s2 := { s1 with dirty := updateF s1.dirty (m, i) true }
    match s2.doc with
    | none => s2
    | some d =>
      match m with
      | Mode.page => { s2 with doc := some { d with pages := listSetContent d.pages i html } }
      | Mode.sec => { s2 with doc := some { d with sections := listSetContent d.sections i html } }

/-- Embedding of `handleRegenerateDocument()`: on success
`setDocumentData(updated); resetRefs(updated); setTimeout(populate…)`;
`finally` clears the loading flag. -/
def handleRegenerateDocument (outcome : Except Unit Document) (s : VState) : VState :=
  match outcome with
  | Except.error _ => { s with snack := some Severity.error, loading := false }
  | Except.ok nd =>
    let s1 := { s with doc := some nd, snack := some Severity.success, loading := false }
    populateEditorsFromDocument nd (reregister nd (resetRefsSt nd s1))

/-- The state while a whole-document regeneration is in flight:
`setLoading(true)` runs before the awaited call. -/
def pendingRegenerateDocument (s : VState) : VState :=
  { s with loading := true }

/-- The `disabled` attribute of the `Regenerate Entire Document` button: the
JSX passes no `disabled` prop at all. -/
def regenerateDocumentDisabled (_s : VState) : Bool := false

/-- The `disabled` attribute of the `Preview` button: `disabled={loading}`. -/
def previewDisabled (s : VState) : Bool := s.loading

/-! ### Concrete inputs used by the witnesses -/

def regionW : Region := { name := "Intro", content := "hello" }

def docW1 : Document := { title := none, raw_text := none, pages := [regionW], sections := [] }

def docW2 : Document :=
  { title := some ("t"), raw_text := some ("raw"),
    pages := [{ name := "Intro", content := "new" }],
    sections := [{ name := "S", content := "secContent" }] }

/-- A state with the page-0 editor registered and edited (dirty). -/
def stateW : VState :=
  { doc := some docW1,
    refs := fun q => if q = (Mode.page, 0) then some ("edited") else none,
    dirty := fun q => decide (q = (Mode.page, 0)),
    loading := false,
    snack := none }

def docSavedW : Document :=
  { title := none, raw_text := none,
    pages := [{ name := "Intro", content := "edited" }], sections := [] }

def docFetchedW : Document :=
  { title := none, raw_text := none,
    pages := [{ name := "Intro", content := "fetched" }], sections := [] }

/-- A state with the page-0 editor registered (content `"edited"`) and all
flags clean. -/
def stateCleanW : VState :=
  { doc := some docW1,
    refs := fun q => if q = (Mode.page, 0) then some ("edited") else none,
    dirty := fun _ => false,
    loading := false,
    snack := none }

/-! ## Export Assembler (`handleOpenPreview` / `handleDownload`) -/

/-- `el ? el.innerHTML : ""` — reading a region through the live handle,
with the empty string for an unregistered key. -/
def readLive (refs : RKey → Option String) (k : RKey) : String := (refs k).getD ("")

/-- `(documentData?.pages || []).map((_, idx) => { const el = …[`page${idx}`];
return el ? el.innerHTML : ""; })` — the map uses only the index. -/
def liveListGo (refs : RKey → Option String) (m : Mode) : Nat → List Region → List String
  | _, [] => []
  | i, _ :: rs => readLive refs (m, i) :: liveListGo refs m (i + 1) rs

def pagesLive (d : Document) (refs : RKey → Option String) : List String :=
  liveListGo refs Mode.page 0 d.pages

def sectionsLive (d : Document) (refs : RKey → Option String) : List String :=
  liveListGo refs Mode.sec 0 d.sections

/-- `const joined = [...pageHtml, ...sectionHtml].join("");` — the assembled
body, identical in `handleOpenPreview` and `handleDownload`. -/
def assembleBody (d : Document) (refs : RKey → Option String) : String :=
  String.join (pagesLive d refs ++ sectionsLive d refs)

/-- The body string built by `handleOpenPreview`. -/
def previewJoined (d : Document) (refs : RKey → Option String) : String :=
  String.join (pagesLive d refs ++ sectionsLive d refs)

/-- The body string built by `handleDownload` (duplicated code in source). -/
def downloadJoined (d : Document) (refs : RKey → Option String) : String :=
  String.join (pagesLive d refs ++ sectionsLive d refs)

/-- The empty registry. -/
def emptyRefs : RKey → Option String := fun _ => none

/-- Registering a sequence of `(key, markup)` handles in order;
`pageContentRefs.current[refKey] = el` replaces any prior handle. -/
def registerAll (l : List (RKey × String)) (r0 : RKey → Option String) : RKey → Option String :=
  l.foldl (fun f p => updateF f p.1 (some p.2)) r0

/-! ## Search & Highlight (`handleSearch`) -/

/-- `needle` is a prefix of `hay` (character-exact). -/
def isPrefixChars : List Char → List Char → Bool
  | [], _ => true
  | _ :: _, [] => false
  | a :: as, b :: bs => a == b && isPrefixChars as bs

/-- `needle` occurs as a contiguous substring of `hay`. -/
def isSubChars (needle : List Char) : List Char → Bool
  | [] => isPrefixChars needle []
  | b :: bs => isPrefixChars needle (b :: bs) || isSubChars needle bs

/-- `hay.includes(needle)` on strings. -/
def strIncludes (hay needle : String) : Bool := isSubChars needle.toList hay.toList

def hexDigit (n : Nat) : Char :=
  if n < 10 then Char.ofNat (48 + n) else Char.ofNat (87 + n)

/-- The escape `JSON.stringify` applies to one character of a string. -/
def jsonEscapeChar (c : Char) : String :=
  if c = '"' then ("\\\"")
  else if c = '\\' then ("\\\\")
  else if c = '\n' then ("\\n")
  else if c = '\r' then ("\\r")
  else if c = '\t' then ("\\t")
  else if c = Char.ofNat 8 then ("\\b")
  else if c = Char.ofNat 12 then ("\\f")
  else if c.toNat < 32 then
    "\\u00" ++ String.mk [hexDigit (c.toNat / 16), hexDigit (c.toNat % 16)]
  else String.mk [c]

/-- `JSON.stringify(s)` for a string `s`: quote, escape, quote. -/
def jsonStringify (s : String) : String :=
  "\"" ++ String.join (s.toList.map jsonEscapeChar) ++ "\""

/-- `.toLowerCase()`: character-wise lowering. -/
def strToLower (s : String) : String := String.mk (s.toList.map Char.toLower)

/-- The `findIndex` predicate:
`JSON.stringify(i.content).toLowerCase().includes(lower)`. -/
def matchesQuery (lower : String) (r : Region) : Bool :=
  strIncludes (strToLower (jsonStringify r.content)) lower

/-- `Array.prototype.findIndex`, carrying the running index. -/
def findIdxGo (p : Region → Bool) : List Region → Nat → Option Nat
  | [], _ => none
  | r :: rs, i => if p r then some i else findIdxGo p rs (i + 1)

/-- The observable outcome of `handleSearch`: early return on empty query /
missing document (`noop`), the "Not found" snackbar, or a match at a region
key. -/
inductive SearchOutcome where
  | noop
  | notFound
  | found (k : RKey)
deriving DecidableEq, Repr

/-- Embedding of `handleSearch()`:
`if (!search || !documentData) return;` then `findIndex` over
`[...pages, ...sections]` and the key arithmetic
`idx < pages.length ? page${idx} : section${idx - pages.length}`. -/
def handleSearch (query : String) (d : Document) : SearchOutcome :=
  if query == "" then SearchOutcome.noop
  else
    let lower := strToLower query
    match findIdxGo (matchesQuery lower) (d.pages ++ d.sections) 0 with
    | none => SearchOutcome.notFound
    | some idx =>
      SearchOutcome.found
        (if idx < d.pages.length then (Mode.page, idx) else (Mode.sec, idx - d.pages.length))

/-- The ordered region sequence of the spec: pages (ascending) then sections
(ascending), each paired with its key. -/
def enumFromKeys (m : Mode) : Nat → List Region → List (RKey × Region)
  | _, [] => []
  | i, r :: rs => ((m, i), r) :: enumFromKeys m (i + 1) rs

def regionSeq (d : Document) : List (RKey × Region) :=
  enumFromKeys Mode.page 0 d.pages ++ enumFromKeys Mode.sec 0 d.sections

/-- Search as the spec words it: the key of the **first** region in
`regionSeq` whose serialized markup case-insensitively contains the query. -/
def specSearch (query : String) (d : Document) : Option RKey :=
  ((regionSeq d).find? (fun p => matchesQuery (strToLower query) p.2)).map (fun p => p.1)

/-! ## Highlight marking (`handleSearch`, match branch)

The match branch runs two steps on the matched region's element:
`el.querySelectorAll("mark").forEach(m => { m.outerHTML = m.innerText; })`
and then `el.innerHTML = el.innerHTML.replace(new RegExp(`(${search})`,
"gi"), "<mark>$1</mark>")`.  The replace is plain string processing over
the serialized markup — it knows nothing of tags — and its pattern is the
raw, unescaped user query, so it has RegExp semantics, not literal
substring semantics.  The embedding models the pattern within a RegExp
subset: literal characters and the `.` any-character class; a query
containing any other metacharacter changes the match semantics (an
unbalanced `(` even makes `new RegExp` throw a SyntaxError) and is mapped
to `none`. -/

/-- RegExp metacharacters outside the modeled subset. -/
def metaChars : List Char :=
  ['(', ')', '[', ']', '\x7b', '\x7d', '*', '+', '?', '|', '^', '$', '\\']

/-- One token of the modeled pattern: a literal character or the `.`
any-character class. -/
inductive RTok where
  | lit (c : Char)
  | anyChar
deriving DecidableEq, Repr

/-- `new RegExp(`(${search})`, "gi")` built from the raw, unescaped query:
`.` becomes the any-character class, any other metacharacter leaves the
modeled subset (`none`), every remaining character is a literal. -/
def parsePattern : List Char → Option (List RTok)
  | [] => some []
  | c :: cs =>
    if c = '.' then (parsePattern cs).map (fun ts => RTok.anyChar :: ts)
    else if c ∈ metaChars then none
    else (parsePattern cs).map (fun ts => RTok.lit c :: ts)

/-- One token against one character under the `i` flag: literals compare
case-insensitively, `.` matches everything except a line terminator. -/
def tokMatches (t : RTok) (c : Char) : Bool :=
  match t with
  | RTok.lit a => a.toLower == c.toLower
  | RTok.anyChar =>
    !(c == '\n' || c == '\r' || c == Char.ofNat 0x2028 || c == Char.ofNat 0x2029)

/-- The pattern matches at the head of the character list (one character
per token: the subset has no quantifiers, so a match has the pattern's
length). -/
def patAtHead : List RTok → List Char → Bool
  | [], _ => true
  | _ :: _, [] => false
  | t :: ts, c :: cs => tokMatches t c && patAtHead ts cs

/-- The literal characters of the injected `<mark>` tag. -/
def markOpenTag : List Char := "<mark>".toList

/-- The literal characters of the injected `</mark>` tag. -/
def markCloseTag : List Char := "</mark>".toList

/-- Fuel-indexed worker for `replaceMarks`: the fuel (one unit per scanned
position) only bounds the recursion and is irrelevant once it is at least
the list length. -/
def replaceMarksGo (pat : List RTok) : Nat → List Char → List Char
  | 0, l => l
  | _ + 1, [] => []
  | fuel + 1, c :: cs =>
    if pat.length ≠ 0 ∧ patAtHead pat (c :: cs) = true then
      markOpenTag ++ (c :: cs).take pat.length ++ markCloseTag
        ++ replaceMarksGo pat fuel ((c :: cs).drop pat.length)
    else c :: replaceMarksGo pat fuel cs

/-- `s.replace(new RegExp(`(${q})`, "gi"), "<mark>$1</mark>")` over the
serialized markup: scan left to right; at a pattern match wrap the matched
original characters (`$1`) in a literal `<mark>` tag pair and continue
after the match (`g`: leftmost, non-overlapping).  The scan is plain
string processing, so matches inside existing markup are wrapped too.
(The handler guard keeps the query nonempty; the empty pattern, which in
JS matches at every position, is excluded by that guard.) -/
def replaceMarks (pat : List RTok) (l : List Char) : List Char :=
  replaceMarksGo pat l.length l

/-- Fuel-indexed worker for `stripMarks`. -/
def stripMarksGo : Nat → List Char → List Char
  | 0, l => l
  | _ + 1, [] => []
  | fuel + 1, c :: cs =>
    if isPrefixChars markOpenTag (c :: cs) then
      stripMarksGo fuel ((c :: cs).drop 6)
    else if isPrefixChars markCloseTag (c :: cs) then
      stripMarksGo fuel ((c :: cs).drop 7)
    else c :: stripMarksGo fuel cs

/-- `el.querySelectorAll("mark").forEach(m => { m.outerHTML = m.innerText; })`
at the level of the serialized markup, for a region whose DOM is plain
text interleaved with flat `<mark>` elements — the shape this handler
itself produces on such regions: each `<mark>`/`</mark>` tag is deleted
and the text kept.  The DOM behavior on nested or corrupted markup (where
`querySelectorAll` misses wreckage and `innerText` is rendering-dependent)
is outside this embedding. -/
def stripMarks (l : List Char) : List Char :=
  stripMarksGo l.length l

/-- The match branch of `handleSearch` on one region's serialized live
markup: clear previously injected markers, then wrap each pattern match.
`none` when the query leaves the modeled RegExp subset (in the program an
invalid pattern throws a SyntaxError out of the handler). -/
def searchHighlightStr (q : String) (s : List Char) : Option (List Char) :=
  match parsePattern q.toList with
  | none => none
  | some pat => some (replaceMarks pat (stripMarks s))

/-- An idle initial state: nothing loaded, nothing registered, all clean. -/
def stateInitW : VState :=
  { doc := none, refs := fun _ => none, dirty := fun _ => false,
    loading := false, snack := none }

/-- The key-value view of a registration list. -/
def lookupKey (l : List (RKey × String)) (k : RKey) : Option String :=
  (l.find? (fun p => p.1 == k)).map (fun p => p.2)

def regListW1 : List (RKey × String) := [((Mode.page, 0), "A"), ((Mode.sec, 0), "C")]

def regListW2 : List (RKey × String) := [((Mode.sec, 0), "C"), ((Mode.page, 0), "A")]

def docQW : Document :=
  { title := none, raw_text := none,
    pages := [{ name := "P", content := "hi" }], sections := [] }

def docSearchW : Document :=
  { title := none, raw_text := none,
    pages := [{ name := "P0", content := "beta" }, { name := "P1", content := "gamma" }],
    sections := [{ name := "S0", content := "xxalphayy" }] }

/-! ## Lemmas and claim theorems -/

lemma normalizeShape_idem (o : Option RawRegion) (m : Mode) :
    normalizeShape (normalizeShape o m) m = normalizeShape o m := by
  rcases o with _ | ⟨nm, ct, ty, ly⟩
  · rfl
  · cases m <;> rcases ty with _ | t <;> rcases ly with _ | l <;>
      simp only [normalizeShape, jsFalsy] <;> split_ifs <;> simp_all [jsFalsy]

lemma normalizeShape_not_falsy_layout (o : RawRegion) :
    ∃ r : RawRegion, normalizeShape (some o) Mode.page = some r ∧
      jsFalsy r.layout = false ∧ (jsFalsy o.layout = true → r.layout = some ("text")) ∧
      (jsFalsy o.layout = false → r.layout = o.layout) := by
  obtain ⟨nm, ct, ty, ly⟩ := o
  rcases ty with _ | t <;> rcases ly with _ | l <;>
    simp only [normalizeShape, jsFalsy] <;> split_ifs <;> simp_all [jsFalsy]

lemma normalizeShape_not_falsy_type (o : RawRegion) :
    ∃ r : RawRegion, normalizeShape (some o) Mode.sec = some r ∧
      jsFalsy r.type = false ∧ (jsFalsy o.type = true → r.type = some ("text")) ∧
      (jsFalsy o.type = false → r.type = o.type) := by
  obtain ⟨nm, ct, ty, ly⟩ := o
  rcases ty with _ | t <;> rcases ly with _ | l <;>
    simp only [normalizeShape, jsFalsy] <;> split_ifs <;> simp_all [jsFalsy]

lemma layoutOk_normalizeShape (p : Option RawRegion) :
    layoutOk (normalizeShape p Mode.page) = true := by
  rcases p with _ | o
  · rfl
  · obtain ⟨r, hr, hfal, -, -⟩ := normalizeShape_not_falsy_layout o
    simp [hr, layoutOk, hfal]

lemma typeOk_normalizeShape (p : Option RawRegion) :
    typeOk (normalizeShape p Mode.sec) = true := by
  rcases p with _ | o
  · rfl
  · obtain ⟨r, hr, hfal, -, -⟩ := normalizeShape_not_falsy_type o
    simp [hr, typeOk, hfal]

lemma map_normalizeShape_idem (l : List (Option RawRegion)) (m : Mode) :
    (l.map (fun p => normalizeShape p m)).map (fun p => normalizeShape p m)
      = l.map (fun p => normalizeShape p m) := by
  rw [List.map_map]
  exact List.map_congr_left (fun a _ => normalizeShape_idem a m)

/-- C6 — Normalization is idempotent and total: for every input document `d`
(including `null` and documents with absent `pages`/`sections` arrays),
`normalizeDocument (normalizeDocument d) = normalizeDocument d`; the output
always carries both arrays; every page of the output has a non-falsy
`layout` and every section a non-falsy `type`; and `normalizeShape` defaults
a missing/empty `layout` (pages) resp. `type` (sections) to `"text"` while
leaving a present one unchanged. -/
theorem normalize_idempotent_total (d : Option RawDoc) :
    normalizeDocument (some (normalizeDocument d)) = normalizeDocument d ∧
    (normalizeDocument d).pages.isSome = true ∧
    (normalizeDocument d).sections.isSome = true ∧
    ((normalizeDocument d).pages.getD []).all layoutOk = true ∧
    ((normalizeDocument d).sections.getD []).all typeOk = true ∧
    (∀ o : RawRegion, ∃ r : RawRegion, normalizeShape (some o) Mode.page = some r ∧
       (jsFalsy o.layout = true → r.layout = some ("text")) ∧
       (jsFalsy o.layout = false → r.layout = o.layout)) ∧
    (∀ o : RawRegion, ∃ r : RawRegion, normalizeShape (some o) Mode.sec = some r ∧
       (jsFalsy o.type = true → r.type = some ("text")) ∧
       (jsFalsy o.type = false → r.type = o.type)) := by
  refine ⟨?_, ?_, ?_, ?_, ?_, ?_, ?_⟩
  · rcases d with _ | d
    · rfl
    · simp only [normalizeDocument, Option.getD_some, map_normalizeShape_idem]
  · rcases d with _ | d <;> rfl
  · rcases d with _ | d <;> rfl
  · rcases d with _ | d
    · rfl
    · simp only [normalizeDocument, Option.getD_some, List.all_eq_true]
      intro x hx
      obtain ⟨p, -, rfl⟩ := List.mem_map.mp hx
      exact layoutOk_normalizeShape p
  · rcases d with _ | d
    · rfl
    · simp only [normalizeDocument, Option.getD_some, List.all_eq_true]
      intro x hx
      obtain ⟨p, -, rfl⟩ := List.mem_map.mp hx
      exact typeOk_normalizeShape p
  · intro o
    obtain ⟨r, hr, -, h1, h2⟩ := normalizeShape_not_falsy_layout o
    exact ⟨r, hr, h1, h2⟩
  · intro o
    obtain ⟨r, hr, -, h1, h2⟩ := normalizeShape_not_falsy_type o
    exact ⟨r, hr, h1, h2⟩

/-! ### Effect lemmas for the populate / re-register loops -/

lemma writeIfClean_dirty_eq (k : RKey) (c : String) (s : VState) :
    (writeIfClean k c s).dirty = s.dirty := by
  unfold writeIfClean
  split
  · rfl
  · split <;> rfl

lemma writeIfClean_doc_eq (k : RKey) (c : String) (s : VState) :
    (writeIfClean k c s).doc = s.doc := by
  unfold writeIfClean
  split
  · rfl
  · split <;> rfl

lemma writeIfClean_refs_other {q k : RKey} (c : String) (s : VState) (h : q ≠ k) :
    (writeIfClean k c s).refs q = s.refs q := by
  unfold writeIfClean
  split
  · rfl
  · split
    · rfl
    · simp [updateF, h]

lemma writeIfClean_of_dirty {k : RKey} (c : String) (s : VState) (h : s.dirty k = true) :
    writeIfClean k c s = s := by
  unfold writeIfClean
  split
  · rfl
  · simp [h]

lemma registerOne_dirty_eq (k : RKey) (r : Region) (s : VState) :
    (registerOne k r s).dirty = s.dirty := rfl

lemma registerOne_doc_eq (k : RKey) (r : Region) (s : VState) :
    (registerOne k r s).doc = s.doc := rfl

lemma registerOne_refs_eq (k : RKey) (r : Region) (s : VState) :
    (registerOne k r s).refs =
      updateF s.refs k
        (some (if !s.dirty k && jsBlank ((s.refs k).getD (""))
               then r.content else (s.refs k).getD (""))) := rfl

lemma registerOne_refs_other {q k : RKey} (r : Region) (s : VState) (h : q ≠ k) :
    (registerOne k r s).refs q = s.refs q := by
  rw [registerOne_refs_eq]
  simp only [updateF]
  rw [if_neg h]

lemma registerOne_refs_self (k : RKey) (r : Region) (s : VState) :
    (registerOne k r s).refs k =
      some (if !s.dirty k && jsBlank ((s.refs k).getD (""))
            then r.content else (s.refs k).getD ("")) := by
  rw [registerOne_refs_eq]
  simp [updateF]

lemma populateGo_dirty_eq (m : Mode) (rs : List Region) :
    ∀ (idx : Nat) (s : VState), (populateGo m idx rs s).dirty = s.dirty := by
  induction rs with
  | nil => intro idx s; rfl
  | cons r rs ih =>
    intro idx s
    rw [populateGo, ih, writeIfClean_dirty_eq]

lemma populateGo_doc_eq (m : Mode) (rs : List Region) :
    ∀ (idx : Nat) (s : VState), (populateGo m idx rs s).doc = s.doc := by
  induction rs with
  | nil => intro idx s; rfl
  | cons r rs ih =>
    intro idx s
    rw [populateGo, ih, writeIfClean_doc_eq]

lemma registerGo_dirty_eq (m : Mode) (rs : List Region) :
    ∀ (idx : Nat) (s : VState), (registerGo m idx rs s).dirty = s.dirty := by
  induction rs with
  | nil => intro idx s; rfl
  | cons r rs ih =>
    intro idx s
    rw [registerGo, ih, registerOne_dirty_eq]

lemma registerGo_doc_eq (m : Mode) (rs : List Region) :
    ∀ (idx : Nat) (s : VState), (registerGo m idx rs s).doc = s.doc := by
  induction rs with
  | nil => intro idx s; rfl
  | cons r rs ih =>
    intro idx s
    rw [registerGo, ih, registerOne_doc_eq]

/-- Keys the loop never touches keep their handle. -/
lemma populateGo_refs_untouched (m : Mode) (rs : List Region) :
    ∀ (idx : Nat) (s : VState) (q : RKey),
      (∀ jj, idx ≤ jj → jj < idx + rs.length → q ≠ (m, jj)) →
      (populateGo m idx rs s).refs q = s.refs q := by
  induction rs with
  | nil => intro idx s q _; rfl
  | cons r rs ih =>
    intro idx s q h
    rw [populateGo, ih (idx + 1) _ q
      (fun jj h1 h2 => h jj (by omega) (by simp only [List.length_cons]; omega))]
    exact writeIfClean_refs_other _ _
      (h idx (le_refl idx) (by simp only [List.length_cons]; omega))

lemma registerGo_refs_untouched (m : Mode) (rs : List Region) :
    ∀ (idx : Nat) (s : VState) (q : RKey),
      (∀ jj, idx ≤ jj → jj < idx + rs.length → q ≠ (m, jj)) →
      (registerGo m idx rs s).refs q = s.refs q := by
  induction rs with
  | nil => intro idx s q _; rfl
  | cons r rs ih =>
    intro idx s q h
    rw [registerGo, ih (idx + 1) _ q
      (fun jj h1 h2 => h jj (by omega) (by simp only [List.length_cons]; omega))]
    exact registerOne_refs_other _ _
      (h idx (le_refl idx) (by simp only [List.length_cons]; omega))

/-- A dirty key's handle is never changed by the populate loop. -/
lemma populateGo_refs_dirty (m : Mode) (rs : List Region) :
    ∀ (idx : Nat) (s : VState) (q : RKey), s.dirty q = true →
      (populateGo m idx rs s).refs q = s.refs q := by
  induction rs with
  | nil => intro idx s q _; rfl
  | cons r rs ih =>
    intro idx s q h
    rw [populateGo]
    rw [ih (idx + 1) _ q (by rw [writeIfClean_dirty_eq]; exact h)]
    by_cases hq : q = (m, idx)
    · subst hq; rw [writeIfClean_of_dirty _ _ h]
    · exact writeIfClean_refs_other _ _ hq

/-- A dirty key that is registered keeps its exact handle through the
re-registration loop. -/
lemma registerGo_refs_dirty_some (m : Mode) (rs : List Region) :
    ∀ (idx : Nat) (s : VState) (q : RKey) (v : String),
      s.dirty q = true → s.refs q = some v →
      (registerGo m idx rs s).refs q = some v := by
  induction rs with
  | nil => intro idx s q v _ hv; exact hv
  | cons r rs ih =>
    intro idx s q v h hv
    rw [registerGo]
    by_cases hq : q = (m, idx)
    · subst hq
      refine ih (idx + 1) _ _ v (by rw [registerOne_dirty_eq]; exact h) ?_
      rw [registerOne_refs_self]
      simp [h, hv]
    · refine ih (idx + 1) _ _ v (by rw [registerOne_dirty_eq]; exact h) ?_
      rw [registerOne_refs_other _ _ hq]
      exact hv

/-- The value of key `(m, idx + j)` after the populate loop: overwritten with
the document's content exactly when the key is registered and clean. -/
lemma populateGo_refs_at (m : Mode) (rs : List Region) :
    ∀ (idx : Nat) (s : VState) (j : Nat) (r : Region), rs.get? j = some r →
      (populateGo m idx rs s).refs (m, idx + j) =
        if (s.refs (m, idx + j)).isSome && !s.dirty (m, idx + j)
        then some r.content else s.refs (m, idx + j) := by
  induction rs with
  | nil => intro idx s j r h; simp at h
  | cons r0 rs ih =>
    intro idx s j r h
    rw [populateGo]
    cases j with
    | zero =>
      simp only [List.get?_cons_zero, Option.some.injEq] at h
      subst h
      rw [populateGo_refs_untouched m rs (idx + 1) _ (m, idx + 0)
        (fun jj h1 h2 => by simp; omega)]
      unfold writeIfClean
      rcases hr : s.refs (m, idx) with _ | v
      · simp [Nat.add_zero, hr]
      · rcases hd : s.dirty (m, idx) with _ | _
        · simp only [hd, Bool.false_eq_true, if_false, Nat.add_zero]
          simp [updateF, hr]
        · simp [Nat.add_zero, hd, hr]
    | succ j' =>
      simp only [List.get?_cons_succ] at h
      have harith : idx + (j' + 1) = (idx + 1) + j' := by omega
      rw [harith]
      rw [ih (idx + 1) _ j' r h]
      have hne : ((m, (idx + 1) + j') : RKey) ≠ (m, idx) := by simp; omega
      rw [writeIfClean_refs_other _ _ hne, writeIfClean_dirty_eq]

/-- The value of key `(m, idx + j)` after the re-registration loop. -/
lemma registerGo_refs_at (m : Mode) (rs : List Region) :
    ∀ (idx : Nat) (s : VState) (j : Nat) (r : Region), rs.get? j = some r →
      (registerGo m idx rs s).refs (m, idx + j) =
        some (if !s.dirty (m, idx + j) && jsBlank ((s.refs (m, idx + j)).getD (""))
              then r.content else (s.refs (m, idx + j)).getD ("")) := by
  induction rs with
  | nil => intro idx s j r h; simp at h
  | cons r0 rs ih =>
    intro idx s j r h
    rw [registerGo]
    cases j with
    | zero =>
      simp only [List.get?_cons_zero, Option.some.injEq] at h
      subst h
      rw [registerGo_refs_untouched m rs (idx + 1) _ (m, idx + 0)
        (fun jj h1 h2 => by simp; omega)]
      rw [Nat.add_zero, registerOne_refs_self]
    | succ j' =>
      simp only [List.get?_cons_succ] at h
      have harith : idx + (j' + 1) = (idx + 1) + j' := by omega
      rw [harith]
      rw [ih (idx + 1) _ j' r h]
      have hne : ((m, (idx + 1) + j') : RKey) ≠ (m, idx) := by simp; omega
      rw [registerOne_refs_other _ _ hne, registerOne_dirty_eq]

/-! ### Composite lemmas -/

lemma populate_dirty_eq (d : Document) (s : VState) :
    (populateEditorsFromDocument d s).dirty = s.dirty := by
  unfold populateEditorsFromDocument
  rw [populateGo_dirty_eq, populateGo_dirty_eq]

lemma populate_doc_eq (d : Document) (s : VState) :
    (populateEditorsFromDocument d s).doc = s.doc := by
  unfold populateEditorsFromDocument
  rw [populateGo_doc_eq, populateGo_doc_eq]

lemma reregister_dirty_eq (d : Document) (s : VState) :
    (reregister d s).dirty = s.dirty := by
  unfold reregister
  rw [registerGo_dirty_eq, registerGo_dirty_eq]

lemma reregister_doc_eq (d : Document) (s : VState) :
    (reregister d s).doc = s.doc := by
  unfold reregister
  rw [registerGo_doc_eq, registerGo_doc_eq]

/-- A dirty key's live content survives one whole repopulation pass. -/
lemma populate_refs_dirty (d : Document) (s : VState) (q : RKey)
    (h : s.dirty q = true) :
    (populateEditorsFromDocument d s).refs q = s.refs q := by
  unfold populateEditorsFromDocument
  rw [populateGo_refs_dirty _ _ _ _ _ (by rw [populateGo_dirty_eq]; exact h)]
  rw [populateGo_refs_dirty _ _ _ _ _ h]

/-- A dirty registered key keeps its exact live content through a re-render. -/
lemma reregister_refs_dirty_some (d : Document) (s : VState) (q : RKey) (v : String)
    (hd : s.dirty q = true) (hv : s.refs q = some v) :
    (reregister d s).refs q = some v := by
  unfold reregister
  refine registerGo_refs_dirty_some _ _ _ _ _ _ ?_ ?_
  · rw [registerGo_dirty_eq]; exact hd
  · exact registerGo_refs_dirty_some _ _ _ _ _ _ hd hv

/-- The `resetRefs` → re-render → deferred `populateEditorsFromDocument`
pipeline (as run by `fetchDocument`, `handleRegenerate` and
`handleRegenerateDocument`) ends with every region's live content equal to
the document's content for that key. -/
lemma resetPipeline_refs (s : VState) (nd : Document) (m : Mode) (i : Nat) (r : Region)
    (h : (regionsOf nd m).get? i = some r) :
    (populateEditorsFromDocument nd (reregister nd (resetRefsSt nd s))).refs (m, i)
      = some r.content := by
  have hz : ∀ (q : RKey), (resetRefsSt nd s).refs q = none := fun _ => rfl
  have hzd : ∀ (q : RKey), (resetRefsSt nd s).dirty q = false := fun _ => rfl
  unfold populateEditorsFromDocument reregister
  set s0 := resetRefsSt nd s with hs0
  cases m with
  | page =>
    have hp : (registerGo Mode.page 0 nd.pages s0).refs (Mode.page, i) = some r.content := by
      have := registerGo_refs_at Mode.page nd.pages 0 s0 i r (by simpa [regionsOf] using h)
      rw [Nat.zero_add] at this
      rw [this, hz, hzd]
      simp [jsBlank]
    have hpd : (registerGo Mode.page 0 nd.pages s0).dirty (Mode.page, i) = false := by
      rw [registerGo_dirty_eq]; exact hzd _
    have hs : (registerGo Mode.sec 0 nd.sections (registerGo Mode.page 0 nd.pages s0)).refs
        (Mode.page, i) = some r.content := by
      rw [registerGo_refs_untouched Mode.sec nd.sections 0 _ (Mode.page, i)
        (fun jj _ _ => by simp)]
      exact hp
    have hsd : (registerGo Mode.sec 0 nd.sections (registerGo Mode.page 0 nd.pages s0)).dirty
        (Mode.page, i) = false := by
      rw [registerGo_dirty_eq]; exact hpd
    have hpop : (populateGo Mode.page 0 nd.pages
        (registerGo Mode.sec 0 nd.sections (registerGo Mode.page 0 nd.pages s0))).refs
        (Mode.page, i) = some r.content := by
      have := populateGo_refs_at Mode.page nd.pages 0
        (registerGo Mode.sec 0 nd.sections (registerGo Mode.page 0 nd.pages s0)) i r
        (by simpa [regionsOf] using h)
      rw [Nat.zero_add] at this
      rw [this, hs, hsd]
      simp
    rw [populateGo_refs_untouched Mode.sec nd.sections 0 _ (Mode.page, i)
      (fun jj _ _ => by simp)]
    exact hpop
  | sec =>
    have hp : (registerGo Mode.page 0 nd.pages s0).refs (Mode.sec, i) = none := by
      rw [registerGo_refs_untouched Mode.page nd.pages 0 _ (Mode.sec, i)
        (fun jj _ _ => by simp)]
      exact hz _
    have hpd : (registerGo Mode.page 0 nd.pages s0).dirty (Mode.sec, i) = false := by
      rw [registerGo_dirty_eq]; exact hzd _
    have hs : (registerGo Mode.sec 0 nd.sections (registerGo Mode.page 0 nd.pages s0)).refs
        (Mode.sec, i) = some r.content := by
      have := registerGo_refs_at Mode.sec nd.sections 0
        (registerGo Mode.page 0 nd.pages s0) i r (by simpa [regionsOf] using h)
      rw [Nat.zero_add] at this
      rw [this, hp, hpd]
      simp [jsBlank]
    have hsd : (registerGo Mode.sec 0 nd.sections (registerGo Mode.page 0 nd.pages s0)).dirty
        (Mode.sec, i) = false := by
      rw [registerGo_dirty_eq]; exact hpd
    have hpop : (populateGo Mode.page 0 nd.pages
        (registerGo Mode.sec 0 nd.sections (registerGo Mode.page 0 nd.pages s0))).refs
        (Mode.sec, i) = some r.content := by
      rw [populateGo_refs_untouched Mode.page nd.pages 0 _ (Mode.sec, i)
        (fun jj _ _ => by simp)]
      exact hs
    have hpopd : (populateGo Mode.page 0 nd.pages
        (registerGo Mode.sec 0 nd.sections (registerGo Mode.page 0 nd.pages s0))).dirty
        (Mode.sec, i) = false := by
      rw [populateGo_dirty_eq]; exact hsd
    have := populateGo_refs_at Mode.sec nd.sections 0
      (populateGo Mode.page 0 nd.pages
        (registerGo Mode.sec 0 nd.sections (registerGo Mode.page 0 nd.pages s0))) i r
      (by simpa [regionsOf] using h)
    rw [Nat.zero_add] at this
    rw [this, hpop, hpopd]
    simp

/-- C1 — Dirty dominance: a key whose dirty flag is set keeps its live
content and its flag across any number of repopulation calls from arbitrary
documents; a repopulation pass can change a key's live content only if its
flag was clean; and a local edit (`onInput`) on a registered key sets its
flag. -/
theorem dirty_dominance (s : VState) (k : RKey) (docs : List Document)
    (h : s.dirty k = true) :
    (docs.foldl (fun t d => populateEditorsFromDocument d t) s).refs k = s.refs k ∧
    (docs.foldl (fun t d => populateEditorsFromDocument d t) s).dirty k = true ∧
    (∀ (t : VState) (d : Document),
      (populateEditorsFromDocument d t).refs k ≠ t.refs k → t.dirty k = false) ∧
    (∀ (t : VState) (m : Mode) (i : Nat) (html : String),
      (t.refs (m, i)).isSome = true → (handleInput m i html t).dirty (m, i) = true) := by
  refine ⟨?_, ?_, ?_, ?_⟩
  · induction docs generalizing s with
    | nil => rfl
    | cons d ds ih =>
      rw [List.foldl_cons]
      rw [ih (populateEditorsFromDocument d s) (by rw [populate_dirty_eq]; exact h)]
      exact populate_refs_dirty d s k h
  · induction docs generalizing s with
    | nil => exact h
    | cons d ds ih =>
      rw [List.foldl_cons]
      exact ih (populateEditorsFromDocument d s) (by rw [populate_dirty_eq]; exact h)
  · intro t d hne
    rcases ht : t.dirty k with _ | _
    · rfl
    · exact absurd (populate_refs_dirty d t k ht) hne
  · intro t m i html hreg
    rcases hr : t.refs (m, i) with _ | v
    · rw [hr] at hreg; simp at hreg
    · simp only [handleInput, hr]
      rcases hd : t.doc with _ | d0 <;> cases m <;> simp [hd, updateF]

theorem dirty_dominance_witness :
    stateW.dirty (Mode.page, 0) = true ∧
    (([docW2, docW1].foldl (fun t d => populateEditorsFromDocument d t) stateW).refs (Mode.page, 0)
        = stateW.refs (Mode.page, 0) ∧
      ([docW2, docW1].foldl (fun t d => populateEditorsFromDocument d t) stateW).dirty (Mode.page, 0)
        = true ∧
      (∀ (t : VState) (d : Document),
        (populateEditorsFromDocument d t).refs (Mode.page, 0) ≠ t.refs (Mode.page, 0) →
          t.dirty (Mode.page, 0) = false) ∧
      (∀ (t : VState) (m : Mode) (i : Nat) (html : String),
        (t.refs (m, i)).isSome = true → (handleInput m i html t).dirty (m, i) = true)) :=
  ⟨by decide, dirty_dominance stateW (Mode.page, 0) [docW2, docW1] (by decide)⟩

/-- C3 — Reset clears: after `resetRefs` over a document's keys followed by
the re-render and the deferred repopulation, every region's live content
equals the corresponding Document field and every dirty flag is clean,
regardless of the prior dirty state. -/
theorem reset_clears (s : VState) (nd : Document) (m : Mode) (i : Nat) (r : Region)
    (h : (regionsOf nd m).get? i = some r) :
    (populateEditorsFromDocument nd (reregister nd (resetRefsSt nd s))).refs (m, i)
        = some r.content ∧
    (∀ q : RKey,
      (populateEditorsFromDocument nd (reregister nd (resetRefsSt nd s))).dirty q = false) := by
  refine ⟨resetPipeline_refs s nd m i r h, fun q => ?_⟩
  rw [populate_dirty_eq, reregister_dirty_eq]
  rfl

theorem reset_clears_witness :
    (regionsOf docW2 Mode.sec).get? 0 = some { name := "S", content := "secContent" } ∧
    ((populateEditorsFromDocument docW2 (reregister docW2 (resetRefsSt docW2 stateW))).refs
        (Mode.sec, 0) = some ({ name := "S", content := "secContent" } : Region).content ∧
      (∀ q : RKey,
        (populateEditorsFromDocument docW2 (reregister docW2 (resetRefsSt docW2 stateW))).dirty q
          = false)) :=
  ⟨by decide, reset_clears stateW docW2 Mode.sec 0 _ (by decide)⟩

/-- C2, counterexample to the claim as stated: after `handleSave` succeeds
the key is dirty and its live content is the saved markup, but a subsequent
document fetch (which runs `resetRefs`, clearing every dirty flag, before
repopulating) overwrites the region's live content with the fetched
content. -/
theorem post_save_lock_cex :
    (handleSave Mode.page 0 (Except.ok docSavedW) stateCleanW).dirty (Mode.page, 0) = true ∧
    (handleSave Mode.page 0 (Except.ok docSavedW) stateCleanW).refs (Mode.page, 0)
      = some ("edited") ∧
    (fetchDocument (Except.ok docFetchedW)
        (handleSave Mode.page 0 (Except.ok docSavedW) stateCleanW)).refs (Mode.page, 0)
      = some ("fetched") := by
  decide

/-- C2, amended — Post-save lock: after `saveRegion(k)` succeeds, `isDirty k`
is true, the saved region's live content is untouched (the deferred
repopulation skips the dirty key), and it remains untouched under any
further repopulation passes; however, a subsequent document fetch clears
every dirty flag (`resetRefs`) and then repopulates, so it overwrites region
`k`'s live content with the fetched document's content for that key. -/
theorem post_save_lock (s : VState) (m : Mode) (i : Nat) (doc : Document)
    (html : String) (item : Region) (serverDoc : Document)
    (hdoc : s.doc = some doc) (hreg : s.refs (m, i) = some html)
    (hitem : (regionsOf doc m).get? i = some item) :
    (handleSave m i (Except.ok serverDoc) s).dirty (m, i) = true ∧
    (handleSave m i (Except.ok serverDoc) s).refs (m, i) = some html ∧
    (handleSave m i (Except.ok serverDoc) s).doc = some serverDoc ∧
    (∀ d : Document,
      (populateEditorsFromDocument d (handleSave m i (Except.ok serverDoc) s)).refs (m, i)
        = some html) ∧
    (∀ (nd : Document) (r : Region), (regionsOf nd m).get? i = some r →
      (fetchDocument (Except.ok nd) (handleSave m i (Except.ok serverDoc) s)).refs (m, i)
        = some r.content) := by
  have hsave : handleSave m i (Except.ok serverDoc) s
      = populateEditorsFromDocument serverDoc (reregister serverDoc
          { s with doc := some serverDoc, snack := some Severity.success,
                   dirty := updateF s.dirty (m, i) true }) := by
    unfold handleSave
    rw [hdoc, hreg]
    dsimp only
    rw [hitem]
  have hdirty : (handleSave m i (Except.ok serverDoc) s).dirty (m, i) = true := by
    rw [hsave, populate_dirty_eq, reregister_dirty_eq]
    simp [updateF]
  have hrefs : (handleSave m i (Except.ok serverDoc) s).refs (m, i) = some html := by
    rw [hsave]
    rw [populate_refs_dirty _ _ _ (by rw [reregister_dirty_eq]; simp [updateF])]
    exact reregister_refs_dirty_some _ _ _ _ (by simp [updateF]) hreg
  refine ⟨hdirty, hrefs, ?_, ?_, ?_⟩
  · rw [hsave, populate_doc_eq, reregister_doc_eq]
  · intro d
    rw [populate_refs_dirty _ _ _ hdirty]
    exact hrefs
  · intro nd r hr
    have hf : fetchDocument (Except.ok nd) (handleSave m i (Except.ok serverDoc) s)
        = populateEditorsFromDocument nd (reregister nd (resetRefsSt nd
            { handleSave m i (Except.ok serverDoc) s with doc := some nd, loading := false })) :=
      rfl
    rw [hf]
    exact resetPipeline_refs _ nd m i r hr

theorem post_save_lock_witness :
    stateCleanW.doc = some docW1 ∧
    stateCleanW.refs (Mode.page, 0) = some ("edited") ∧
    (regionsOf docW1 Mode.page).get? 0 = some regionW ∧
    ((handleSave Mode.page 0 (Except.ok docSavedW) stateCleanW).dirty (Mode.page, 0) = true ∧
      (handleSave Mode.page 0 (Except.ok docSavedW) stateCleanW).refs (Mode.page, 0)
        = some ("edited") ∧
      (handleSave Mode.page 0 (Except.ok docSavedW) stateCleanW).doc = some docSavedW ∧
      (∀ d : Document,
        (populateEditorsFromDocument d
            (handleSave Mode.page 0 (Except.ok docSavedW) stateCleanW)).refs (Mode.page, 0)
          = some ("edited")) ∧
      (∀ (nd : Document) (r : Region), (regionsOf nd Mode.page).get? 0 = some r →
        (fetchDocument (Except.ok nd)
            (handleSave Mode.page 0 (Except.ok docSavedW) stateCleanW)).refs (Mode.page, 0)
          = some r.content)) :=
  ⟨by decide, by decide, by decide,
    post_save_lock stateCleanW Mode.page 0 docW1 ("edited") regionW docSavedW
      (by decide) (by decide) (by decide)⟩

/-- C7 — saveRegion failure atomicity: when the external save call fails
(after the guards passed, i.e. a document is loaded, the region's editor is
registered and the index is in range), the resulting state is the old state
with only an error snackbar: the Document, every dirty flag and every live
handle are exactly as before the attempt. -/
theorem save_failure_atomic (s : VState) (m : Mode) (i : Nat) (doc : Document)
    (html : String) (item : Region)
    (hdoc : s.doc = some doc) (hreg : s.refs (m, i) = some html)
    (hitem : (regionsOf doc m).get? i = some item) :
    handleSave m i (Except.error ()) s = { s with snack := some Severity.error } ∧
    (handleSave m i (Except.error ()) s).doc = s.doc ∧
    (handleSave m i (Except.error ()) s).dirty = s.dirty ∧
    (handleSave m i (Except.error ()) s).refs = s.refs ∧
    (handleSave m i (Except.error ()) s).snack = some Severity.error := by
  have h : handleSave m i (Except.error ()) s = { s with snack := some Severity.error } := by
    unfold handleSave
    rw [hdoc, hreg]
    dsimp only
    rw [hitem]
  exact ⟨h, by rw [h], by rw [h], by rw [h], by rw [h]⟩

theorem save_failure_atomic_witness :
    stateW.doc = some docW1 ∧
    stateW.refs (Mode.page, 0) = some ("edited") ∧
    (regionsOf docW1 Mode.page).get? 0 = some regionW ∧
    (handleSave Mode.page 0 (Except.error ()) stateW
        = { stateW with snack := some Severity.error } ∧
      (handleSave Mode.page 0 (Except.error ()) stateW).doc = stateW.doc ∧
      (handleSave Mode.page 0 (Except.error ()) stateW).dirty = stateW.dirty ∧
      (handleSave Mode.page 0 (Except.error ()) stateW).refs = stateW.refs ∧
      (handleSave Mode.page 0 (Except.error ()) stateW).snack = some Severity.error) :=
  ⟨by decide, by decide, by decide,
    save_failure_atomic stateW Mode.page 0 docW1 ("edited") regionW
      (by decide) (by decide) (by decide)⟩

/-- C9, counterexample to the claim as stated: with a whole-document
regeneration pending (the loading flag set by `setLoading(true)`), the
`Regenerate Entire Document` button is still enabled — its `disabled`
attribute is `false`, not `true` as the claim requires. -/
theorem regenerate_guard_cex :
    (pendingRegenerateDocument stateInitW).loading = true ∧
    regenerateDocumentDisabled (pendingRegenerateDocument stateInitW) = false :=
  ⟨rfl, rfl⟩

/-- C9, amended: while a whole-document regeneration is pending the
`Regenerate Entire Document` button remains enabled (the JSX passes no
`disabled` prop), so a second `regenerateDocument` can be triggered and the
code provides no single-in-flight guard; by contrast the `Preview` button is
disabled while loading. -/
theorem regenerate_no_guard (s : VState) :
    (pendingRegenerateDocument s).loading = true ∧
    regenerateDocumentDisabled (pendingRegenerateDocument s) = false ∧
    previewDisabled (pendingRegenerateDocument s) = true :=
  ⟨rfl, rfl, rfl⟩

lemma liveListGo_get? (refs : RKey → Option String) (m : Mode) :
    ∀ (l : List Region) (i0 j : Nat),
      (liveListGo refs m i0 l).get? j = (l.get? j).map (fun _ => readLive refs (m, i0 + j)) := by
  intro l
  induction l with
  | nil => intro i0 j; simp [liveListGo]
  | cons r rs ih =>
    intro i0 j
    cases j with
    | zero => simp [liveListGo]
    | succ j' =>
      simp only [liveListGo, List.get?_cons_succ]
      rw [ih (i0 + 1) j']
      have : i0 + 1 + j' = i0 + (j' + 1) := by omega
      rw [this]

/-- C10 — Reading an unregistered region never fails: with no live handle
registered for `(m, i)`, `handleSave` returns without contacting the server
(the result is independent of the call's outcome) and without changing any
state, the live read yields the empty string, the assembled body lists carry
`""` at that region's position, and preview and download assemble the same
total body. -/
theorem unregistered_read_safe (s : VState) (m : Mode) (i : Nat)
    (outcome : Except Unit Document) (h : s.refs (m, i) = none) :
    handleSave m i outcome s = s ∧
    readLive s.refs (m, i) = "" ∧
    (∀ d : Document, m = Mode.page → i < d.pages.length →
      (pagesLive d s.refs).get? i = some ("")) ∧
    (∀ d : Document, m = Mode.sec → i < d.sections.length →
      (sectionsLive d s.refs).get? i = some ("")) ∧
    (∀ d : Document, previewJoined d s.refs = assembleBody d s.refs ∧
      downloadJoined d s.refs = assembleBody d s.refs) := by
  have hread : readLive s.refs (m, i) = "" := by rw [readLive, h]; rfl
  refine ⟨?_, hread, ?_, ?_, fun d => ⟨rfl, rfl⟩⟩
  · cases hd : s.doc with
    | none => unfold handleSave; rw [hd]
    | some doc =>
      unfold handleSave
      rw [hd]
      dsimp only
      rw [h]
  · intro d hm hlen
    subst hm
    rw [pagesLive, liveListGo_get?, List.get?_eq_get hlen]
    simp only [Option.map_some', Nat.zero_add]
    rw [hread]
  · intro d hm hlen
    subst hm
    rw [sectionsLive, liveListGo_get?, List.get?_eq_get hlen]
    simp only [Option.map_some', Nat.zero_add]
    rw [hread]

theorem unregistered_read_safe_witness :
    stateInitW.refs (Mode.page, 0) = none ∧
    (handleSave Mode.page 0 (Except.ok docW2) stateInitW = stateInitW ∧
      readLive stateInitW.refs (Mode.page, 0) = "" ∧
      (∀ d : Document, Mode.page = Mode.page → 0 < d.pages.length →
        (pagesLive d stateInitW.refs).get? 0 = some ("")) ∧
      (∀ d : Document, Mode.page = Mode.sec → 0 < d.sections.length →
        (sectionsLive d stateInitW.refs).get? 0 = some ("")) ∧
      (∀ d : Document, previewJoined d stateInitW.refs = assembleBody d stateInitW.refs ∧
        downloadJoined d stateInitW.refs = assembleBody d stateInitW.refs)) :=
  ⟨rfl, unregistered_read_safe stateInitW Mode.page 0 (Except.ok docW2) rfl⟩

/-- The fuel of `replaceMarksGo` is irrelevant above the list length. -/
lemma replaceMarksGo_congr (pat : List RTok) :
    ∀ (f1 : Nat) (l : List Char) (f2 : Nat), l.length ≤ f1 → l.length ≤ f2 →
      replaceMarksGo pat f1 l = replaceMarksGo pat f2 l := by
  intro f1
  induction f1 with
  | zero =>
    intro l f2 h1 _
    rw [List.length_eq_zero.mp (Nat.le_zero.mp h1)]
    cases f2 <;> rfl
  | succ f ih =>
    intro l f2 h1 h2
    cases l with
    | nil => cases f2 <;> rfl
    | cons c cs =>
      cases f2 with
      | zero => simp at h2
      | succ g =>
        simp only [replaceMarksGo]
        by_cases hcond : pat.length ≠ 0 ∧ patAtHead pat (c :: cs) = true
        · rw [if_pos hcond, if_pos hcond]
          rw [ih _ g
            (by simp only [List.length_drop, List.length_cons]
                simp only [List.length_cons] at h1
                have := hcond.1
                omega)
            (by simp only [List.length_drop, List.length_cons]
                simp only [List.length_cons] at h2
                have := hcond.1
                omega)]
        · rw [if_neg hcond, if_neg hcond]
          rw [ih cs g (by simp only [List.length_cons] at h1; omega)
            (by simp only [List.length_cons] at h2; omega)]

/-- The unfolding equation of `replaceMarks` on a nonempty list. -/
lemma replaceMarks_cons (pat : List RTok) (c : Char) (cs : List Char) :
    replaceMarks pat (c :: cs) =
      if pat.length ≠ 0 ∧ patAtHead pat (c :: cs) = true then
        markOpenTag ++ (c :: cs).take pat.length ++ markCloseTag
          ++ replaceMarks pat ((c :: cs).drop pat.length)
      else c :: replaceMarks pat cs := by
  show replaceMarksGo pat (c :: cs).length (c :: cs) = _
  simp only [List.length_cons, replaceMarksGo]
  by_cases hcond : pat.length ≠ 0 ∧ patAtHead pat (c :: cs) = true
  · rw [if_pos hcond, if_pos hcond]
    rw [replaceMarksGo_congr pat cs.length ((c :: cs).drop pat.length)
      ((c :: cs).drop pat.length).length
      (by simp only [List.length_drop, List.length_cons]
          have := hcond.1
          omega)
      (le_refl _)]
    rfl
  · rw [if_neg hcond, if_neg hcond]
    rfl

/-- The fuel of `stripMarksGo` is irrelevant above the list length. -/
lemma stripMarksGo_congr :
    ∀ (f1 : Nat) (l : List Char) (f2 : Nat), l.length ≤ f1 → l.length ≤ f2 →
      stripMarksGo f1 l = stripMarksGo f2 l := by
  intro f1
  induction f1 with
  | zero =>
    intro l f2 h1 _
    rw [List.length_eq_zero.mp (Nat.le_zero.mp h1)]
    cases f2 <;> rfl
  | succ f ih =>
    intro l f2 h1 h2
    cases l with
    | nil => cases f2 <;> rfl
    | cons c cs =>
      cases f2 with
      | zero => simp at h2
      | succ g =>
        simp only [stripMarksGo]
        by_cases h6 : isPrefixChars markOpenTag (c :: cs) = true
        · rw [if_pos h6, if_pos h6]
          rw [ih _ g
            (by simp only [List.length_drop, List.length_cons]
                simp only [List.length_cons] at h1
                omega)
            (by simp only [List.length_drop, List.length_cons]
                simp only [List.length_cons] at h2
                omega)]
        · rw [if_neg h6, if_neg h6]
          by_cases h7 : isPrefixChars markCloseTag (c :: cs) = true
          · rw [if_pos h7, if_pos h7]
            rw [ih _ g
              (by simp only [List.length_drop, List.length_cons]
                  simp only [List.length_cons] at h1
                  omega)
              (by simp only [List.length_drop, List.length_cons]
                  simp only [List.length_cons] at h2
                  omega)]
          · rw [if_neg h7, if_neg h7]
            rw [ih cs g (by simp only [List.length_cons] at h1; omega)
              (by simp only [List.length_cons] at h2; omega)]

lemma isPrefixChars_self_append : ∀ (p x : List Char), isPrefixChars p (p ++ x) = true := by
  intro p
  induction p with
  | nil => intro x; rfl
  | cons a as ih =>
    intro x
    rw [List.cons_append]
    simp only [isPrefixChars]
    rw [ih x]
    simp

/-- A character other than `<` can start neither mark tag. -/
lemma stripMarks_cons_clean {c : Char} (cs : List Char) (h : c ≠ '<') :
    stripMarks (c :: cs) = c :: stripMarks cs := by
  have hne : (('<' : Char) == c) = false := beq_eq_false_iff_ne.mpr (fun hh => h hh.symm)
  have hopen : isPrefixChars markOpenTag (c :: cs) = false := by
    have e1 : markOpenTag = '<' :: "mark>".toList := rfl
    rw [e1]
    simp only [isPrefixChars]
    rw [hne, Bool.false_and]
  have hclose : isPrefixChars markCloseTag (c :: cs) = false := by
    have e1 : markCloseTag = '<' :: "/mark>".toList := rfl
    rw [e1]
    simp only [isPrefixChars]
    rw [hne, Bool.false_and]
  show stripMarksGo (c :: cs).length (c :: cs) = _
  simp only [List.length_cons, stripMarksGo, hopen, hclose, Bool.false_eq_true, if_false]
  rfl

lemma stripMarks_markOpen (x : List Char) :
    stripMarks (markOpenTag ++ x) = stripMarks x := by
  have e : markOpenTag ++ x = '<' :: ("mark>".toList ++ x) := rfl
  have hpre : isPrefixChars markOpenTag ('<' :: ("mark>".toList ++ x)) = true := by
    rw [← e]
    exact isPrefixChars_self_append markOpenTag x
  have hdrop : ('<' :: ("mark>".toList ++ x)).drop 6 = x := by
    rw [← e]
    have h6 : markOpenTag.length = 6 := rfl
    rw [← h6]
    exact List.drop_left markOpenTag x
  show stripMarksGo (markOpenTag ++ x).length (markOpenTag ++ x) = stripMarks x
  rw [e, List.length_cons]
  simp only [stripMarksGo, hpre, if_true]
  rw [hdrop]
  rw [stripMarks]
  refine stripMarksGo_congr _ x x.length ?_ (le_refl _)
  have h5 : ("mark>".toList).length = 5 := rfl
  rw [List.length_append, h5]
  omega

lemma stripMarks_markClose (x : List Char) :
    stripMarks (markCloseTag ++ x) = stripMarks x := by
  have e : markCloseTag ++ x = '<' :: ("/mark>".toList ++ x) := rfl
  have hopen : isPrefixChars markOpenTag ('<' :: ("/mark>".toList ++ x)) = false := by
    have e1 : markOpenTag = '<' :: 'm' :: "ark>".toList := rfl
    have e2 : ("/mark>".toList ++ x : List Char) = '/' :: ("mark>".toList ++ x) := rfl
    rw [e1, e2]
    simp only [isPrefixChars]
    rw [show (('m' : Char) == '/') = false from rfl]
    simp
  have hpre : isPrefixChars markCloseTag ('<' :: ("/mark>".toList ++ x)) = true := by
    rw [← e]
    exact isPrefixChars_self_append markCloseTag x
  have hdrop : ('<' :: ("/mark>".toList ++ x)).drop 7 = x := by
    rw [← e]
    have h7 : markCloseTag.length = 7 := rfl
    rw [← h7]
    exact List.drop_left markCloseTag x
  show stripMarksGo (markCloseTag ++ x).length (markCloseTag ++ x) = stripMarks x
  rw [e, List.length_cons]
  simp only [stripMarksGo, hopen, hpre, Bool.false_eq_true, if_false, if_true]
  rw [hdrop]
  rw [stripMarks]
  refine stripMarksGo_congr _ x x.length ?_ (le_refl _)
  have h6 : ("/mark>".toList).length = 6 := rfl
  rw [List.length_append, h6]
  omega

/-- Stripping passes `<`-free text through unchanged. -/
lemma stripMarks_clean_append : ∀ (a b : List Char), (∀ c ∈ a, c ≠ '<') →
    stripMarks (a ++ b) = a ++ stripMarks b := by
  intro a
  induction a with
  | nil => intro b _; rfl
  | cons c a' ih =>
    intro b hcl
    rw [List.cons_append]
    rw [stripMarks_cons_clean (a' ++ b) (hcl c (List.mem_cons_self c a'))]
    rw [ih b (fun d hd => hcl d (List.mem_cons_of_mem c hd))]
    rfl

/-- On markup-free text, stripping undoes exactly the markers that
`replaceMarks` inserted. -/
lemma stripMarks_replaceMarks (pat : List RTok) : ∀ (t : List Char),
    (∀ c ∈ t, c ≠ '<') → stripMarks (replaceMarks pat t) = t := by
  have key : ∀ (n : Nat) (t : List Char), t.length ≤ n → (∀ c ∈ t, c ≠ '<') →
      stripMarks (replaceMarks pat t) = t := by
    intro n
    induction n with
    | zero =>
      intro t ht _
      rw [List.length_eq_zero.mp (Nat.le_zero.mp ht)]
      rfl
    | succ n ih =>
      intro t ht hcl
      match t with
      | [] => rfl
      | c :: cs =>
        rw [replaceMarks_cons]
        by_cases hcond : pat.length ≠ 0 ∧ patAtHead pat (c :: cs) = true
        · rw [if_pos hcond]
          rw [List.append_assoc, List.append_assoc]
          rw [stripMarks_markOpen]
          rw [stripMarks_clean_append ((c :: cs).take pat.length) _
            (fun d hd => hcl d (List.take_subset _ _ hd))]
          rw [stripMarks_markClose]
          rw [ih ((c :: cs).drop pat.length)
            (by simp only [List.length_drop, List.length_cons]
                simp only [List.length_cons] at ht
                have := hcond.1
                omega)
            (fun d hd => hcl d (List.drop_subset _ _ hd))]
          exact List.take_append_drop _ _
        · rw [if_neg hcond]
          rw [stripMarks_cons_clean _ (hcl c (List.mem_cons_self c cs))]
          rw [ih cs (by simp only [List.length_cons] at ht; omega)
            (fun d hd => hcl d (List.mem_cons_of_mem c hd))]
  intro t
  exact key t.length t (le_refl _)

/-- C8, counterexample to the claim as stated: the replace pattern is the
raw, unescaped query with RegExp semantics over the serialized markup, not
a literal wrap of each occurrence.  For query `"a.c"` on content `"abc"`
the whole content is wrapped although the query never occurs in it
case-insensitively; for query `"p"` on the markup `"<p>Hi</p>"` the markers
are injected inside the existing tags, corrupting the markup (on reparse
the region's content changes, so repetition is not content-preserving
there); and a query such as `"("` makes `new RegExp` throw a SyntaxError
(outside the modeled subset: `parsePattern` is `none`). -/
theorem search_highlight_cex :
    searchHighlightStr ("a.c") ("abc".toList) = some ("<mark>abc</mark>".toList) ∧
    strIncludes (strToLower ("abc")) (strToLower ("a.c")) = false ∧
    searchHighlightStr ("p") ("<p>Hi</p>".toList)
      = some ("<<mark>p</mark>>Hi</<mark>p</mark>>".toList) ∧
    parsePattern ("(").toList = none := by
  decide

/-- C8, amended — Search idempotence on the handler's own output domain:
for a nonempty query within the modeled RegExp subset and a region whose
live markup is plain text (free of `<`, `>`, `&`) interleaved only with
previously injected flat `<mark>` markers, the match branch first strips
every previous marker and then wraps each pattern match, the underlying
text is preserved (markers never accumulate), and repeating the same
search any number of times yields the same region content.  Outside that
domain the pattern has RegExp (not substring) semantics and markers land
inside existing markup, as the counterexample shows. -/
theorem search_highlight_idem (q : String) (s : List Char) (pat : List RTok) (n : Nat)
    (hq : q ≠ "") (hp : parsePattern q.toList = some pat)
    (hclean : ∀ c ∈ stripMarks s, c ≠ '<' ∧ c ≠ '>' ∧ c ≠ '&') :
    searchHighlightStr q s = some (replaceMarks pat (stripMarks s)) ∧
    stripMarks (replaceMarks pat (stripMarks s)) = stripMarks s ∧
    replaceMarks pat (stripMarks (replaceMarks pat (stripMarks s)))
      = replaceMarks pat (stripMarks s) ∧
    (fun l => replaceMarks pat (stripMarks l))^[n + 1] s
      = replaceMarks pat (stripMarks s) := by
  have hcl : ∀ c ∈ stripMarks s, c ≠ '<' := fun c hc => (hclean c hc).1
  have hstrip : stripMarks (replaceMarks pat (stripMarks s)) = stripMarks s :=
    stripMarks_replaceMarks pat (stripMarks s) hcl
  refine ⟨?_, hstrip, ?_, ?_⟩
  · unfold searchHighlightStr
    rw [hp]
  · rw [hstrip]
  · induction n with
    | zero => rfl
    | succ m ihm =>
      rw [Function.iterate_succ_apply', ihm]
      show replaceMarks pat (stripMarks (replaceMarks pat (stripMarks s))) = _
      rw [hstrip]

theorem search_highlight_idem_witness :
    ("b" : String) ≠ "" ∧
    parsePattern ("b" : String).toList = some [RTok.lit 'b'] ∧
    (∀ c ∈ stripMarks ("a<mark>b</mark>c".toList), c ≠ '<' ∧ c ≠ '>' ∧ c ≠ '&') ∧
    (searchHighlightStr ("b") ("a<mark>b</mark>c".toList)
        = some (replaceMarks [RTok.lit 'b'] (stripMarks ("a<mark>b</mark>c".toList))) ∧
      stripMarks (replaceMarks [RTok.lit 'b'] (stripMarks ("a<mark>b</mark>c".toList)))
        = stripMarks ("a<mark>b</mark>c".toList) ∧
      replaceMarks [RTok.lit 'b']
          (stripMarks (replaceMarks [RTok.lit 'b'] (stripMarks ("a<mark>b</mark>c".toList))))
        = replaceMarks [RTok.lit 'b'] (stripMarks ("a<mark>b</mark>c".toList)) ∧
      (fun l => replaceMarks [RTok.lit 'b'] (stripMarks l))^[1 + 1] ("a<mark>b</mark>c".toList)
        = replaceMarks [RTok.lit 'b'] (stripMarks ("a<mark>b</mark>c".toList))) :=
  ⟨by decide, by decide, by decide,
    search_highlight_idem ("b") ("a<mark>b</mark>c".toList) [RTok.lit 'b'] 1
      (by decide) (by decide) (by decide)⟩

lemma lookupKey_none_of_not_mem {l : List (RKey × String)} {k : RKey}
    (h : k ∉ l.map Prod.fst) : lookupKey l k = none := by
  rw [lookupKey, Option.map_eq_none', List.find?_eq_none]
  intro x hx
  simp only [beq_iff_eq]
  intro hxk
  exact h (List.mem_map.mpr ⟨x, hx, hxk⟩)

lemma lookupKey_some_mem {l : List (RKey × String)} {k : RKey} {v : String}
    (h : lookupKey l k = some v) : (k, v) ∈ l := by
  rw [lookupKey, Option.map_eq_some'] at h
  obtain ⟨a, ha, hav⟩ := h
  have hk : a.1 = k := by simpa [beq_iff_eq] using List.find?_some ha
  have : a = (k, v) := by
    cases a
    simp_all
  rw [← this]
  exact List.mem_of_find?_eq_some ha

lemma mem_lookupKey {l : List (RKey × String)} (hnd : (l.map Prod.fst).Nodup)
    {k : RKey} {v : String} (h : (k, v) ∈ l) : lookupKey l k = some v := by
  induction l with
  | nil => simp at h
  | cons p t ih =>
    simp only [List.map_cons, List.nodup_cons] at hnd
    rcases List.mem_cons.mp h with heq | hmem
    · rw [lookupKey,
        @List.find?_cons_of_pos _ (fun x => x.1 == k) p t (by rw [← heq]; simp)]
      rw [← heq]
      rfl
    · have hne : ¬((fun (x : RKey × String) => x.1 == k) p) = true := by
        simp only [beq_iff_eq]
        intro hk
        exact hnd.1 (List.mem_map.mpr ⟨(k, v), hmem, by rw [hk]⟩)
      rw [lookupKey, @List.find?_cons_of_neg _ (fun x => x.1 == k) p t hne]
      exact ih hnd.2 hmem

/-- `registerAll` viewed pointwise: with pairwise-distinct keys the final
handle for `k` is the one registered for `k`, or the pre-existing one. -/
lemma registerAll_eq (k : RKey) : ∀ (l : List (RKey × String)) (r0 : RKey → Option String),
    (l.map Prod.fst).Nodup →
    registerAll l r0 k =
      (match lookupKey l k with
       | some v => some v
       | none => r0 k) := by
  intro l
  induction l with
  | nil => intro r0 _; rfl
  | cons p t ih =>
    intro r0 hnd
    simp only [List.map_cons, List.nodup_cons] at hnd
    have hstep : registerAll (p :: t) r0 = registerAll t (updateF r0 p.1 (some p.2)) := rfl
    rw [hstep, ih _ hnd.2]
    by_cases hk : p.1 = k
    · have ht : lookupKey t k = none :=
        lookupKey_none_of_not_mem (by rw [← hk]; exact hnd.1)
      have hh : lookupKey (p :: t) k = some p.2 := by
        rw [lookupKey, @List.find?_cons_of_pos _ (fun x => x.1 == k) p t (by simp [hk])]
        rfl
      rw [ht, hh]
      simp [updateF, hk]
    · have hh : lookupKey (p :: t) k = lookupKey t k := by
        rw [lookupKey, @List.find?_cons_of_neg _ (fun x => x.1 == k) p t (by simp [hk]),
          lookupKey]
      rw [hh]
      have hk' : ¬ k = p.1 := fun hh2 => hk hh2.symm
      cases lookupKey t k
      · simp [updateF, hk']
      · rfl

/-- Registration order is irrelevant: permuting a duplicate-free
registration sequence yields the same registry. -/
lemma registerAll_perm {l₁ l₂ : List (RKey × String)} (hperm : l₁.Perm l₂)
    (hnd : (l₁.map Prod.fst).Nodup) (r0 : RKey → Option String) :
    registerAll l₁ r0 = registerAll l₂ r0 := by
  have hnd₂ : (l₂.map Prod.fst).Nodup := ((hperm.map Prod.fst).nodup_iff).mp hnd
  funext k
  rw [registerAll_eq k l₁ r0 hnd, registerAll_eq k l₂ r0 hnd₂]
  cases hl : lookupKey l₁ k with
  | some v =>
    rw [mem_lookupKey hnd₂ (hperm.subset (lookupKey_some_mem hl))]
  | none =>
    cases hl₂ : lookupKey l₂ k with
    | none => rfl
    | some v =>
      exact absurd (mem_lookupKey hnd (hperm.symm.subset (lookupKey_some_mem hl₂)))
        (by rw [hl]; simp)

lemma enumKeys_map_read (refs : RKey → Option String) (m : Mode) :
    ∀ (l : List Region) (i0 : Nat),
      (enumFromKeys m i0 l).map (fun p => readLive refs p.1) = liveListGo refs m i0 l := by
  intro l
  induction l with
  | nil => intro i0; rfl
  | cons r rs ih =>
    intro i0
    simp only [enumFromKeys, liveListGo, List.map_cons]
    rw [ih]

lemma liveListGo_length_congr (refs : RKey → Option String) (m : Mode) :
    ∀ (l₁ l₂ : List Region) (i0 : Nat), l₁.length = l₂.length →
      liveListGo refs m i0 l₁ = liveListGo refs m i0 l₂ := by
  intro l₁
  induction l₁ with
  | nil =>
    intro l₂ i0 h
    rw [List.length_nil] at h
    rw [(List.length_eq_zero.mp h.symm)]
  | cons r rs ih =>
    intro l₂ i0 h
    cases l₂ with
    | nil => simp at h
    | cons r' rs' =>
      simp only [List.length_cons, Nat.add_right_cancel_iff] at h
      simp only [liveListGo]
      rw [ih rs' (i0 + 1) h]

/-- C5 — Assembly order: the assembled body is the join of the live reads of
the region sequence — pages in stored order, then sections in stored order;
preview and download build that same body; the result is independent of the
order in which the handles were registered; and it depends on the Document
only through the region counts (content is read through the live handles, so
unsaved in-progress edits are included). -/
theorem assembly_order (d : Document) (refs : RKey → Option String)
    (l₁ l₂ : List (RKey × String)) (hperm : l₁.Perm l₂)
    (hnd : (l₁.map Prod.fst).Nodup) :
    assembleBody d refs = String.join ((regionSeq d).map (fun p => readLive refs p.1)) ∧
    previewJoined d refs = assembleBody d refs ∧
    downloadJoined d refs = assembleBody d refs ∧
    assembleBody d (registerAll l₁ emptyRefs) = assembleBody d (registerAll l₂ emptyRefs) ∧
    (∀ d' : Document, d'.pages.length = d.pages.length →
      d'.sections.length = d.sections.length →
      assembleBody d' refs = assembleBody d refs) := by
  refine ⟨?_, rfl, rfl, ?_, ?_⟩
  · rw [assembleBody, regionSeq, List.map_append, enumKeys_map_read, enumKeys_map_read]
    rfl
  · rw [registerAll_perm hperm hnd]
  · intro d' hp hs
    rw [assembleBody, assembleBody, pagesLive, pagesLive, sectionsLive, sectionsLive]
    rw [liveListGo_length_congr refs Mode.page d'.pages d.pages 0 hp]
    rw [liveListGo_length_congr refs Mode.sec d'.sections d.sections 0 hs]

theorem assembly_order_witness :
    regListW1.Perm regListW2 ∧
    (regListW1.map Prod.fst).Nodup ∧
    (assembleBody docW2 stateW.refs
        = String.join ((regionSeq docW2).map (fun p => readLive stateW.refs p.1)) ∧
      previewJoined docW2 stateW.refs = assembleBody docW2 stateW.refs ∧
      downloadJoined docW2 stateW.refs = assembleBody docW2 stateW.refs ∧
      assembleBody docW2 (registerAll regListW1 emptyRefs)
        = assembleBody docW2 (registerAll regListW2 emptyRefs) ∧
      (∀ d' : Document, d'.pages.length = docW2.pages.length →
        d'.sections.length = docW2.sections.length →
        assembleBody d' stateW.refs = assembleBody docW2 stateW.refs)) :=
  ⟨by decide, by decide,
    assembly_order docW2 stateW.refs regListW1 regListW2 (by decide) (by decide)⟩

lemma findIdxGo_bounds (pb : Region → Bool) : ∀ (l : List Region) (i j : Nat),
    findIdxGo pb l i = some j → i ≤ j ∧ j < i + l.length := by
  intro l
  induction l with
  | nil => intro i j h; simp [findIdxGo] at h
  | cons r rs ih =>
    intro i j h
    simp only [findIdxGo] at h
    split at h
    · obtain rfl := Option.some.inj h
      exact ⟨le_refl _, by simp only [List.length_cons]; omega⟩
    · obtain ⟨h1, h2⟩ := ih (i + 1) j h
      exact ⟨by omega, by simp only [List.length_cons]; omega⟩

lemma findIdxGo_shift (pb : Region → Bool) : ∀ (l : List Region) (i : Nat),
    findIdxGo pb l i = (findIdxGo pb l 0).map (fun j => j + i) := by
  intro l
  induction l with
  | nil => intro i; rfl
  | cons r rs ih =>
    intro i
    simp only [findIdxGo]
    cases hp : pb r
    · simp only [Bool.false_eq_true, if_false]
      rw [ih (i + 1), ih 1]
      cases h0 : findIdxGo pb rs 0
      · rfl
      · simp only [Option.map_some']
        congr 1
        omega
    · simp

lemma findIdxGo_append (pb : Region → Bool) : ∀ (l₁ l₂ : List Region) (i : Nat),
    findIdxGo pb (l₁ ++ l₂) i =
      (match findIdxGo pb l₁ i with
       | some j => some j
       | none => findIdxGo pb l₂ (i + l₁.length)) := by
  intro l₁
  induction l₁ with
  | nil =>
    intro l₂ i
    simp [findIdxGo]
  | cons r rs ih =>
    intro l₂ i
    rw [List.cons_append]
    simp only [findIdxGo]
    cases hp : pb r
    · simp only [Bool.false_eq_true, if_false]
      rw [ih l₂ (i + 1)]
      have harith : i + 1 + rs.length = i + (r :: rs).length := by
        simp only [List.length_cons]; omega
      rw [harith]
    · simp

lemma enum_find_eq (pb : Region → Bool) (m : Mode) : ∀ (l : List Region) (i0 : Nat),
    ((enumFromKeys m i0 l).find? (fun x => pb x.2)).map (fun x => x.1)
      = (findIdxGo pb l i0).map (fun j => ((m, j) : RKey)) := by
  intro l
  induction l with
  | nil => intro i0; rfl
  | cons r rs ih =>
    intro i0
    simp only [enumFromKeys, findIdxGo]
    cases hp : pb r
    · rw [@List.find?_cons_of_neg _ (fun x => pb x.2) ((m, i0), r) _ (by simp [hp])]
      simp only [Bool.false_eq_true, if_false]
      exact ih (i0 + 1)
    · rw [@List.find?_cons_of_pos _ (fun x => pb x.2) ((m, i0), r) _ (by simp [hp])]
      simp

/-- C4, counterexample to the claim as stated ("for every query"): on the
empty query `handleSearch` returns early (`if (!search …) return`) without
returning a match and without signalling NotFound, even though the first
region matches the empty query (every serialized markup contains `""`). -/
theorem search_empty_query_cex :
    handleSearch ("") docQW = SearchOutcome.noop ∧
    specSearch ("") docQW = some (Mode.page, 0) ∧
    matchesQuery (strToLower ("")) ({ name := "P", content := "hi" } : Region) = true := by
  decide

/-- C4, amended — Search match semantics and order, for every **nonempty**
query: the scan runs over pages in array order followed by sections in array
order; a region matches exactly when its serialized markup
(`JSON.stringify`) case-insensitively contains the query as a substring; the
first matching region in that order is returned with the correct region key;
and NotFound is signalled exactly when no region matches.  (On the empty
query the handler returns early and does neither.) -/
theorem search_first_match (q : String) (d : Document) (hq : q ≠ "") :
    handleSearch q d =
      (match specSearch q d with
       | some k => SearchOutcome.found k
       | none => SearchOutcome.notFound) ∧
    (handleSearch q d = SearchOutcome.notFound ↔
      ∀ x ∈ regionSeq d, matchesQuery (strToLower q) x.2 = false) := by
  have hmain : handleSearch q d =
      (match specSearch q d with
       | some k => SearchOutcome.found k
       | none => SearchOutcome.notFound) := by
    unfold handleSearch specSearch regionSeq
    rw [if_neg (by simp [hq])]
    dsimp only
    rw [findIdxGo_append, List.find?_append]
    cases hA : findIdxGo (matchesQuery (strToLower q)) d.pages 0 with
    | some j =>
      have hb := (findIdxGo_bounds (matchesQuery (strToLower q)) d.pages 0 j hA).2
      rw [Nat.zero_add] at hb
      have he := enum_find_eq (matchesQuery (strToLower q)) Mode.page d.pages 0
      rw [hA] at he
      obtain ⟨x, hx, hx1⟩ := Option.map_eq_some'.mp he
      rw [hx, Option.or_some]
      simp only [Option.map_some', hx1]
      rw [if_pos hb]
    | none =>
      have he := enum_find_eq (matchesQuery (strToLower q)) Mode.page d.pages 0
      rw [hA] at he
      rw [Option.map_eq_none'.mp he, Option.none_or]
      rw [findIdxGo_shift (matchesQuery (strToLower q)) d.sections (0 + d.pages.length)]
      have he2 := enum_find_eq (matchesQuery (strToLower q)) Mode.sec d.sections 0
      cases hB : findIdxGo (matchesQuery (strToLower q)) d.sections 0 with
      | some j0 =>
        rw [hB] at he2
        obtain ⟨x, hx, hx1⟩ := Option.map_eq_some'.mp he2
        rw [hx]
        simp only [Option.map_some', hx1, Nat.zero_add]
        rw [if_neg (by omega)]
        simp only [Nat.add_sub_cancel]
      | none =>
        rw [hB] at he2
        rw [Option.map_eq_none'.mp he2]
        rfl
  refine ⟨hmain, ?_⟩
  rw [hmain]
  cases hs : specSearch q d with
  | some k =>
    simp only
    constructor
    · intro habs
      exact SearchOutcome.noConfusion habs
    · intro hall
      exfalso
      rw [specSearch] at hs
      obtain ⟨x, hfind, -⟩ := Option.map_eq_some'.mp hs
      have hx2 : matchesQuery (strToLower q) x.2 = true := by
        simpa using List.find?_some hfind
      have hmem : x ∈ regionSeq d := List.mem_of_find?_eq_some hfind
      rw [hall x hmem] at hx2
      cases hx2
  | none =>
    simp only
    constructor
    · intro _
      rw [specSearch, Option.map_eq_none', List.find?_eq_none] at hs
      intro x hx
      have := hs x hx
      simpa using this
    · intro _
      trivial

theorem search_first_match_witness :
    ("alpha" : String) ≠ "" ∧
    ((handleSearch ("alpha") docSearchW =
        (match specSearch ("alpha") docSearchW with
         | some k => SearchOutcome.found k
         | none => SearchOutcome.notFound)) ∧
      (handleSearch ("alpha") docSearchW = SearchOutcome.notFound ↔
        ∀ x ∈ regionSeq docSearchW, matchesQuery (strToLower ("alpha")) x.2 = false)) :=
  ⟨by decide, search_first_match ("alpha") docSearchW (by decide)⟩

end DocGen
